import Mathlib

/-!
Verification of the W-Matrix Alignment Engine
(`server/alignment/w_matrix_engine.py`, class `WMatrixAlignmentEngine`).

The engine is embedded shallowly over `Matrix (Fin _) (Fin _) ℚ`.  The
floating-point numeric kernels the Python code delegates to numpy/scipy
(`np.linalg.lstsq`, `scipy.linalg.orthogonal_procrustes`, `np.linalg.svd`,
`np.sqrt`) are modelled as an explicit `LinAlg` record of dimension-polymorphic
functions; theorems that need their mathematical contracts (least-squares
normal equations, orthogonality of Procrustes output, SVD factorization shape)
take those contracts as hypotheses stated at the concrete call sites.
Everything else — control flow, state updates, metric formulas, the rank
clamp, (de)serialization — is translated line by line from the source.
-/

namespace WMatrix

open Matrix

/-- Squared Frobenius norm of a matrix: the sum over all entries of the
entry squared.  `np.linalg.norm(M)**2`, and the row-wise
`np.linalg.norm(M, axis=1)**2` summed over rows. -/
def frobSq {m n : ℕ} (M : Matrix (Fin m) (Fin n) ℚ) : ℚ :=
  ∑ i, ∑ j, (M i j) ^ 2

/-- Mean over rows of the squared Euclidean distance between corresponding
rows, `np.mean(np.linalg.norm(X - Y, axis=1) ** 2)`.  (For `n = 0` numpy
produces NaN; here division by zero yields the junk value `0`.) -/
def meanSqError {n d : ℕ} (X Y : Matrix (Fin n) (Fin d) ℚ) : ℚ :=
  frobSq (X - Y) / n

/-- Error taxonomy.  In the Python source `configurationError` and
`dimensionMismatch` are `ValueError`s (constructor / `compute_alignment`
count check) and `transformNotReady` is the `RuntimeError` raised by
`transform` / `compute_epsilon` / `serialize` before a W-matrix exists;
the specification names them `ConfigurationError`, `DimensionMismatchError`
and `TransformNotReadyError`. -/
inductive AlignError where
  | configurationError
  | dimensionMismatch
  | transformNotReady
deriving DecidableEq

/-- The numeric kernels used by the engine, as supplied by numpy/scipy:
`lstsq A B` models `np.linalg.lstsq(A, B, rcond=None)[0]`,
`procrustes S T` models `scipy.linalg.orthogonal_procrustes(S, T)[0]`,
`svdU/svdS/svdVt M` model the three components of
`np.linalg.svd(M, full_matrices=False)` (so the number of singular values
is `min` of the two dimensions), and `sqrt` models elementwise `np.sqrt`
on nonnegative reals. -/
structure LinAlg where
  lstsq : ∀ {n p q : ℕ}, Matrix (Fin n) (Fin p) ℚ → Matrix (Fin n) (Fin q) ℚ →
    Matrix (Fin p) (Fin q) ℚ
  procrustes : ∀ {n d : ℕ}, Matrix (Fin n) (Fin d) ℚ → Matrix (Fin n) (Fin d) ℚ →
    Matrix (Fin d) (Fin d) ℚ
  svdU : ∀ {p q : ℕ}, Matrix (Fin p) (Fin q) ℚ → Matrix (Fin p) (Fin (min p q)) ℚ
  svdS : ∀ {p q : ℕ}, Matrix (Fin p) (Fin q) ℚ → (Fin (min p q) → ℚ)
  svdVt : ∀ {p q : ℕ}, Matrix (Fin p) (Fin q) ℚ → Matrix (Fin (min p q)) (Fin q) ℚ
  sqrt : ℚ → ℚ

/-- The low-rank correction stored in `self.lora_adapter`: a dict with keys
`"A"` (`D_source × rank`), `"B"` (`rank × D_target`) and `"rank"`. -/
structure LoraAdapter (ds dt : ℕ) where
  rank : ℕ
  A : Matrix (Fin ds) (Fin rank) ℚ
  B : Matrix (Fin rank) (Fin dt) ℚ

/-- The `"metadata"` dict assembled by `compute_alignment` (lines 169-176).
`computation_time_ms` (wall-clock time) is not modelled. -/
structure Metadata where
  source_dim : ℕ
  target_dim : ℕ
  n_anchor_points : ℕ
  use_lora : Bool
  lora_rank : ℤ
deriving DecidableEq

/-- The `"metrics"` dict assembled by `compute_alignment` (lines 162-168).
`information_retention` (a KL divergence through float `log`/`exp`) is
transcendental and not modelled; no claim concerns it. -/
structure Metrics where
  epsilon_base : ℚ
  epsilon_final : ℚ
  fidelity_score : ℚ
  improvement_pct : ℚ
deriving DecidableEq

/-- The result dict returned by `compute_alignment` (lines 159-177). -/
structure AlignResult (ds dt : ℕ) where
  w_matrix : Matrix (Fin ds) (Fin dt) ℚ
  lora_adapter : Option (LoraAdapter ds dt)
  metrics : Metrics
  metadata : Metadata

/-- Mutable state of one `WMatrixAlignmentEngine` instance:
`self.standard_dim`, `self.w_matrix`, `self.lora_adapter`, `self.metadata`
(the latter is `{}` before the first solve, modelled as `none`). -/
structure Engine (ds dt : ℕ) where
  standard_dim : ℕ
  w_matrix : Option (Matrix (Fin ds) (Fin dt) ℚ)
  lora_adapter : Option (LoraAdapter ds dt)
  metadata : Option Metadata

/-- `__init__` (lines 30-43): validates `standard_dim ∈ {4096, 8192}` and
starts with `w_matrix = None`, `lora_adapter = None`, `metadata = {}`. -/
def mkEngine (ds dt standard_dim : ℕ) : Except AlignError (Engine ds dt) :=
  if standard_dim = 4096 ∨ standard_dim = 8192 then
    .ok { standard_dim := standard_dim, w_matrix := none,
          lora_adapter := none, metadata := none }
  else
    .error .configurationError

/-- Step 1 of `compute_alignment` (lines 76-86): dimension-preserving anchor
sets go through `orthogonal_procrustes`, mismatched dimensions through the
unconstrained `np.linalg.lstsq` solve.  (The source writes the branch as
`if source_dim != target_dim: lstsq ... else: procrustes ...`; the branch
order is flipped here so the positive case carries the `ds = dt` proof used
to reindex the column types.) -/
def wBase (la : LinAlg) {n ds dt : ℕ} (s : Matrix (Fin n) (Fin ds) ℚ)
    (t : Matrix (Fin n) (Fin dt) ℚ) : Matrix (Fin ds) (Fin dt) ℚ :=
  if h : ds = dt then
    (la.procrustes s (t.submatrix id (fun j => finCongr h j))).submatrix id
      (fun j => finCongr h.symm j)
  else
    la.lstsq s t

/-- `residual = target_vectors - aligned_base` (line 98), where
`aligned_base = source_vectors @ W_base` (line 89). -/
def residualOf (la : LinAlg) {n ds dt : ℕ} (s : Matrix (Fin n) (Fin ds) ℚ)
    (t : Matrix (Fin n) (Fin dt) ℚ) : Matrix (Fin n) (Fin dt) ℚ :=
  t - s * wBase la s t

/-- `W_lora_full = np.linalg.lstsq(source_vectors, residual, rcond=None)[0]`
(line 108). -/
def wLoraFull (la : LinAlg) {n ds dt : ℕ} (s : Matrix (Fin n) (Fin ds) ℚ)
    (t : Matrix (Fin n) (Fin dt) ℚ) : Matrix (Fin ds) (Fin dt) ℚ :=
  la.lstsq s (residualOf la s t)

/-- `k = min(lora_rank, len(S))` (line 112): `np.linalg.svd(W_lora_full,
full_matrices=False)` returns `min ds dt` singular values for the
`ds × dt` matrix `W_lora_full`.  The branch guarantees `lora_rank > 0`,
so `Int.toNat` is faithful. -/
def loraRankEff (lora_rank : ℤ) (ds dt : ℕ) : ℕ :=
  min lora_rank.toNat (min ds dt)

/-- `A = U[:, :k] @ np.diag(np.sqrt(S[:k]))` (line 115): multiplying the
first `k` columns of `U` by the diagonal of elementwise square roots of the
first `k` singular values scales column `j` of `U` by `sqrt (S j)`. -/
def loraA (la : LinAlg) {ds dt : ℕ} (W : Matrix (Fin ds) (Fin dt) ℚ)
    (k : ℕ) (hk : k ≤ min ds dt) : Matrix (Fin ds) (Fin k) ℚ :=
  Matrix.of fun i j =>
    la.svdU W i (Fin.castLE hk j) * la.sqrt (la.svdS W (Fin.castLE hk j))

/-- `B = np.diag(np.sqrt(S[:k])) @ Vt[:k, :]` (line 116): row `j` of the
first `k` rows of `Vt` scaled by `sqrt (S j)`. -/
def loraB (la : LinAlg) {ds dt : ℕ} (W : Matrix (Fin ds) (Fin dt) ℚ)
    (k : ℕ) (hk : k ≤ min ds dt) : Matrix (Fin k) (Fin dt) ℚ :=
  Matrix.of fun j l =>
    la.sqrt (la.svdS W (Fin.castLE hk j)) * la.svdVt W (Fin.castLE hk j) l

/-- Body of `compute_alignment` (lines 70-181) after the sample-count
check has passed, so source and target share the row type `Fin n`.
Returns the updated engine state (the Python method mutates `self`) paired
with the result dict. -/
def compute_alignment_checked (la : LinAlg) {n ds dt : ℕ} (e : Engine ds dt)
    (source_vectors : Matrix (Fin n) (Fin ds) ℚ)
    (target_vectors : Matrix (Fin n) (Fin dt) ℚ)
    (use_lora : Bool) (lora_rank : ℤ) : Engine ds dt × AlignResult ds dt :=
  let W_base := wBase la source_vectors target_vectors
  let aligned_base := source_vectors * W_base
  let epsilon_base := meanSqError aligned_base target_vectors
  let md : Metadata :=
    { source_dim := ds, target_dim := dt, n_anchor_points := n,
      use_lora := use_lora,
      lora_rank := if use_lora then lora_rank else 0 }
  if use_lora ∧ 0 < lora_rank then
    let W_lora_full := wLoraFull la source_vectors target_vectors
    let k := loraRankEff lora_rank ds dt
    let A := loraA la W_lora_full k (Nat.min_le_right _ _)
    let B := loraB la W_lora_full k (Nat.min_le_right _ _)
    let lora_correction := source_vectors * A * B
    let aligned_lora := aligned_base + lora_correction
    let epsilon_final := meanSqError aligned_lora target_vectors
    let e2 : Engine ds dt :=
      { e with w_matrix := some W_base,
               lora_adapter := some ⟨k, A, B⟩,
               metadata := some md }
    (e2,
     { w_matrix := W_base, lora_adapter := e2.lora_adapter,
       metrics :=
         { epsilon_base := epsilon_base, epsilon_final := epsilon_final,
           fidelity_score := 1 / (1 + epsilon_final),
           improvement_pct :=
             if 0 < epsilon_base then
               max 0 ((epsilon_base - epsilon_final) / epsilon_base * 100)
             else 0 },
       metadata := md })
  else
    let epsilon_final := epsilon_base
    let e2 : Engine ds dt :=
      { e with w_matrix := some W_base, metadata := some md }
    (e2,
     { w_matrix := W_base, lora_adapter := e2.lora_adapter,
       metrics :=
         { epsilon_base := epsilon_base, epsilon_final := epsilon_final,
           fidelity_score := 1 / (1 + epsilon_final),
           improvement_pct :=
             if 0 < epsilon_base then
               max 0 ((epsilon_base - epsilon_final) / epsilon_base * 100)
             else 0 },
       metadata := md })

/-- `compute_alignment` (lines 45-181).  The source/target anchor matrices
carry their own row counts `n1`, `n2`; the method raises
`DimensionMismatchError` (a `ValueError` in the source, line 67-68) before
touching any state when the counts differ, and otherwise runs the solve with
the counts identified. -/
def compute_alignment (la : LinAlg) {n1 n2 ds dt : ℕ} (e : Engine ds dt)
    (source_vectors : Matrix (Fin n1) (Fin ds) ℚ)
    (target_vectors : Matrix (Fin n2) (Fin dt) ℚ)
    (use_lora : Bool) (lora_rank : ℤ) :
    Engine ds dt × Except AlignError (AlignResult ds dt) :=
  if h : n1 = n2 then
    let p := compute_alignment_checked la e
      (source_vectors.submatrix (fun i => finCongr h.symm i) id)
      target_vectors use_lora lora_rank
    (p.1, .ok p.2)
  else
    (e, .error .dimensionMismatch)

/-- Application of a stored transform (lines 197-209): base product plus,
when requested and present, the low-rank correction. -/
def transformCore {ds dt : ℕ} (W : Matrix (Fin ds) (Fin dt) ℚ)
    (adapter : Option (LoraAdapter ds dt)) {m : ℕ}
    (vectors : Matrix (Fin m) (Fin ds) ℚ) (apply_lora : Bool) :
    Matrix (Fin m) (Fin dt) ℚ :=
  let transformed := vectors * W
  match apply_lora, adapter with
  | true, some ad => transformed + vectors * ad.A * ad.B
  | _, _ => transformed

/-- `transform` (lines 183-209): guarded by the not-ready check on
`self.w_matrix` (lines 194-195). -/
def Engine.transform {ds dt : ℕ} (e : Engine ds dt) {m : ℕ}
    (vectors : Matrix (Fin m) (Fin ds) ℚ) (apply_lora : Bool) :
    Except AlignError (Matrix (Fin m) (Fin dt) ℚ) :=
  match e.w_matrix with
  | none => .error .transformNotReady
  | some W => .ok (transformCore W e.lora_adapter vectors apply_lora)

/-- `source_vector.reshape(1, -1)`: a vector as a one-row matrix. -/
def rowOf {d : ℕ} (v : Fin d → ℚ) : Matrix (Fin 1) (Fin d) ℚ :=
  Matrix.of fun _ j => v j

/-- `compute_epsilon` (lines 211-230): after the not-ready guard it calls
`self.transform(source_vector.reshape(1, -1), apply_lora=True)` — which can
no longer fail — and returns the squared Frobenius norm of the difference
with the target row. -/
def Engine.compute_epsilon {ds dt : ℕ} (e : Engine ds dt)
    (source_vector : Fin ds → ℚ) (target_vector : Fin dt → ℚ) :
    Except AlignError ℚ :=
  match e.w_matrix with
  | none => .error .transformNotReady
  | some W =>
    .ok (frobSq (transformCore W e.lora_adapter (rowOf source_vector) true -
                 rowOf target_vector))

/-- The serialized `lora_adapter` entry: nested lists plus the rank. -/
structure SerializedLora where
  A : List (List ℚ)
  B : List (List ℚ)
  rank : ℕ

/-- The dict `serialize` turns into JSON (lines 261-270).  `json.dumps` /
`json.loads` round-trip this structure exactly (Python floats serialize via
`repr`, which is lossless), so the JSON string itself is not modelled. -/
structure SerializedData where
  w_matrix : List (List ℚ)
  lora_adapter : Option SerializedLora
  metadata : Option Metadata
  standard_dim : ℕ

/-- `np.ndarray.tolist()` on a 2-D array. -/
def toLists {m n : ℕ} (M : Matrix (Fin m) (Fin n) ℚ) : List (List ℚ) :=
  List.ofFn fun i => List.ofFn fun j => M i j

/-- `np.array` on a nested list, read at the expected shape (missing entries
default to 0; on the well-formed lists produced by `serialize` every entry
is present). -/
def ofLists (m n : ℕ) (xss : List (List ℚ)) : Matrix (Fin m) (Fin n) ℚ :=
  Matrix.of fun i j => ((xss.getD i []).getD j 0)

/-- `serialize` (lines 251-272): not-ready guard, then the data dict.  The
inner `if self.lora_adapter else None` guards on every key collapse to one
`Option.map`. -/
def Engine.serialize {ds dt : ℕ} (e : Engine ds dt) :
    Except AlignError SerializedData :=
  match e.w_matrix with
  | none => .error .transformNotReady
  | some W =>
    .ok { w_matrix := toLists W,
          lora_adapter := e.lora_adapter.map fun ad =>
            { A := toLists ad.A, B := toLists ad.B, rank := ad.rank },
          metadata := e.metadata,
          standard_dim := e.standard_dim }

/-- `deserialize` (lines 274-299): construct a fresh engine through
`__init__` (validating `standard_dim`), then load the matrices with
`np.array`, whose shapes are read off the nested lists. -/
def deserialize (d : SerializedData) :
    Except AlignError ((ds : ℕ) × (dt : ℕ) × Engine ds dt) :=
  let ds := d.w_matrix.length
  let dt := (d.w_matrix.headD []).length
  match mkEngine ds dt d.standard_dim with
  | .error err => .error err
  | .ok e0 =>
    .ok ⟨ds, dt,
      { e0 with
        w_matrix := some (ofLists ds dt d.w_matrix),
        lora_adapter := d.lora_adapter.map fun la =>
          ⟨la.rank, ofLists ds la.rank la.A, ofLists la.rank dt la.B⟩,
        metadata := d.metadata }⟩

/-- A concrete, fully computable instance of the numeric kernels, used to
evaluate the model on explicit inputs: `lstsq` returns the zero matrix,
`procrustes` the identity, the SVD factors are zero except for a
rectangular-identity `Vt` (whose rows are orthonormal), and `sqrt` is the
zero function.  On the degenerate inputs of the concrete tests below these
satisfy the numeric kernels' mathematical contracts. -/
def trivialLA : LinAlg where
  lstsq := fun {_ _ _} _ _ => 0
  procrustes := fun {_ _} _ _ => 1
  svdU := fun {_ _} _ => 0
  svdS := fun {_ _} _ => fun _ => 0
  svdVt := fun {_ _} _ => Matrix.of fun i j => if (i : ℕ) = (j : ℕ) then 1 else 0
  sqrt := fun _ => 0

/-- A freshly constructed engine for 1-dimensional spaces
(`WMatrixAlignmentEngine(standard_dim=8192)`). -/
def freshEngine1 : Engine 1 1 :=
  { standard_dim := 8192, w_matrix := none, lora_adapter := none, metadata := none }

/-- A freshly constructed engine for 2-dimensional source and target spaces. -/
def freshEngine2 : Engine 2 2 :=
  { standard_dim := 8192, w_matrix := none, lora_adapter := none, metadata := none }

/-- A freshly constructed engine for a 1-to-2-dimensional alignment. -/
def freshEngine12 : Engine 1 2 :=
  { standard_dim := 8192, w_matrix := none, lora_adapter := none, metadata := none }

/-- Engine state after one correction-enabled `compute_alignment` call on a
fresh engine: its `lora_adapter` is populated. -/
def engineWithAdapter : Engine 1 1 :=
  (compute_alignment trivialLA freshEngine1 !![(1 : ℚ)] !![(1 : ℚ)] true 1).1

/-- Engine state after a second `compute_alignment` call, this time with
`use_lora=False`, on `engineWithAdapter`. -/
def engineAfterDisabled : Engine 1 1 :=
  (compute_alignment trivialLA engineWithAdapter !![(1 : ℚ)] !![(1 : ℚ)] false 64).1

/-- A Ready engine holding both a base matrix and a nonzero low-rank
correction, as produced by `deserialize` of a serialized Ready engine. -/
def readyEngine : Engine 1 1 :=
  { standard_dim := 8192, w_matrix := some !![(1 : ℚ)],
    lora_adapter := some ⟨1, !![(1 : ℚ)], !![(1 : ℚ)]⟩, metadata := none }

/-! Helper lemmas. -/

theorem frobSq_nonneg {m n : ℕ} (M : Matrix (Fin m) (Fin n) ℚ) : 0 ≤ frobSq M :=
  Finset.sum_nonneg fun _ _ => Finset.sum_nonneg fun _ _ => sq_nonneg _

theorem frobSq_eq_trace {m n : ℕ} (M : Matrix (Fin m) (Fin n) ℚ) :
    frobSq M = Matrix.trace (Mᵀ * M) := by
  unfold frobSq
  rw [show Matrix.trace (Mᵀ * M) = ∑ j, ∑ i, (M i j) ^ 2 by
    simp [Matrix.trace, Matrix.diag, Matrix.mul_apply, sq]]
  exact Finset.sum_comm

theorem frobSq_neg {m n : ℕ} (M : Matrix (Fin m) (Fin n) ℚ) :
    frobSq (-M) = frobSq M := by
  simp [frobSq]

theorem sum_ite_lt {m k : ℕ} (hk : k ≤ m) (g : Fin m → ℚ) :
    ∑ j : Fin m, (if (j : ℕ) < k then g j else 0) =
      ∑ j : Fin k, g (Fin.castLE hk j) := by
  rw [← Finset.sum_filter]
  rw [show Finset.univ.filter (fun j : Fin m => (j : ℕ) < k) =
      Finset.univ.map (Fin.castLEEmb hk) from ?_]
  · rw [Finset.sum_map]
    rfl
  · ext j
    simp only [Finset.mem_filter, Finset.mem_univ, true_and, Finset.mem_map,
      Fin.castLEEmb_apply]
    constructor
    · intro hj
      exact ⟨⟨j, hj⟩, rfl⟩
    · rintro ⟨a, rfl⟩
      exact a.isLt

theorem div_natCast_mono {a b : ℚ} (n : ℕ) (h : a ≤ b) : a / n ≤ b / n := by
  cases n with
  | zero => simp
  | succ k =>
    have hn : (0 : ℚ) < (k + 1 : ℕ) := by positivity
    exact (div_le_div_iff_of_pos_right hn).mpr h

/-- On a same-dimension anchor set the base solve is the Procrustes branch. -/
theorem wBase_same (la : LinAlg) {n ds : ℕ} (s t : Matrix (Fin n) (Fin ds) ℚ) :
    wBase la s t = la.procrustes s t := by
  unfold wBase
  rw [dif_pos rfl]
  rfl

/-- On a dimension-changing anchor set the base solve is the least-squares
branch. -/
theorem wBase_ne (la : LinAlg) {n ds dt : ℕ} (hne : ds ≠ dt)
    (s : Matrix (Fin n) (Fin ds) ℚ) (t : Matrix (Fin n) (Fin dt) ℚ) :
    wBase la s t = la.lstsq s t := by
  unfold wBase
  rw [dif_neg hne]

/-- When the anchor counts agree syntactically, `compute_alignment` runs the
checked body and wraps its result in `.ok`. -/
theorem compute_alignment_same (la : LinAlg) {n ds dt : ℕ} (e : Engine ds dt)
    (s : Matrix (Fin n) (Fin ds) ℚ) (t : Matrix (Fin n) (Fin dt) ℚ)
    (use_lora : Bool) (lora_rank : ℤ) :
    compute_alignment la e s t use_lora lora_rank =
      ((compute_alignment_checked la e s t use_lora lora_rank).1,
       .ok (compute_alignment_checked la e s t use_lora lora_rank).2) := by
  unfold compute_alignment
  rw [dif_pos rfl]
  rfl

/-- Both branches of the solve store the base matrix in `self.w_matrix`. -/
theorem checked_w_matrix (la : LinAlg) {n ds dt : ℕ} (e : Engine ds dt)
    (s : Matrix (Fin n) (Fin ds) ℚ) (t : Matrix (Fin n) (Fin dt) ℚ)
    (use_lora : Bool) (lora_rank : ℤ) :
    (compute_alignment_checked la e s t use_lora lora_rank).1.w_matrix =
      some (wBase la s t) := by
  by_cases h : (use_lora : Prop) ∧ 0 < lora_rank <;>
    simp [compute_alignment_checked, h]

/-- With the correction disabled the solve takes the `else` branch: metrics
aliased, adapter untouched. -/
theorem checked_disabled (la : LinAlg) {n ds dt : ℕ} (e : Engine ds dt)
    (s : Matrix (Fin n) (Fin ds) ℚ) (t : Matrix (Fin n) (Fin dt) ℚ)
    (use_lora : Bool) (lora_rank : ℤ) (h : ¬((use_lora : Prop) ∧ 0 < lora_rank)) :
    (compute_alignment_checked la e s t use_lora lora_rank).1.lora_adapter =
        e.lora_adapter ∧
      (compute_alignment_checked la e s t use_lora lora_rank).2.metrics.epsilon_final =
        (compute_alignment_checked la e s t use_lora lora_rank).2.metrics.epsilon_base := by
  simp [compute_alignment_checked, h]

theorem toLists_length {m n : ℕ} (M : Matrix (Fin m) (Fin n) ℚ) :
    (toLists M).length = m := by
  simp [toLists]

theorem toLists_headD_length {m n : ℕ} (M : Matrix (Fin m) (Fin n) ℚ)
    (hm : 0 < m) : ((toLists M).headD []).length = n := by
  cases m with
  | zero => omega
  | succ k => simp [toLists, List.ofFn_succ]

theorem ofLists_toLists {m n : ℕ} (M : Matrix (Fin m) (Fin n) ℚ) :
    ofLists m n (toLists M) = M := by
  funext i j
  simp [ofLists, toLists, List.getD_eq_getElem?_getD, List.getElem?_ofFn,
    i.isLt, j.isLt]

/-- Core inequality behind the correction step: if `W_full` solves the
normal equations of `source @ W ≈ residual` and `W_k` is obtained from an
exact factorization `W_full = U · diag S · Vt` (with orthonormal rows of
`Vt`) by masking singular values (`Sk i` is either `S i` or `0`), then
adding `source @ W_k` to the base alignment cannot increase the squared
Frobenius residual. -/
theorem trunc_correction_le {n p q mm : ℕ}
    (s : Matrix (Fin n) (Fin p) ℚ) (r : Matrix (Fin n) (Fin q) ℚ)
    (U : Matrix (Fin p) (Fin mm) ℚ) (S Sk : Fin mm → ℚ)
    (Vt : Matrix (Fin mm) (Fin q) ℚ)
    (hne : sᵀ * r = sᵀ * (s * (U * Matrix.diagonal S * Vt)))
    (hV : Vt * Vtᵀ = 1)
    (hSk : ∀ i, Sk i * S i = Sk i * Sk i) :
    frobSq (r - s * (U * Matrix.diagonal Sk * Vt)) ≤ frobSq r := by
  have hG : Uᵀ * (sᵀ * s) * U = (s * U)ᵀ * (s * U) := by
    simp only [Matrix.transpose_mul, Matrix.mul_assoc]
  set G : Matrix (Fin mm) (Fin mm) ℚ := Uᵀ * (sᵀ * s) * U with hGdef
  set Wk : Matrix (Fin p) (Fin q) ℚ := U * Matrix.diagonal Sk * Vt with hWk
  have hexp : frobSq (r - s * Wk) =
      frobSq r - Matrix.trace ((s * Wk)ᵀ * r) - Matrix.trace (rᵀ * (s * Wk))
        + Matrix.trace ((s * Wk)ᵀ * (s * Wk)) := by
    rw [frobSq_eq_trace, frobSq_eq_trace]
    simp only [Matrix.transpose_sub, Matrix.sub_mul, Matrix.mul_sub,
      Matrix.trace_sub]
    ring
  have hcross : Matrix.trace (rᵀ * (s * Wk)) = Matrix.trace ((s * Wk)ᵀ * r) := by
    rw [← Matrix.trace_transpose (rᵀ * (s * Wk)), Matrix.transpose_mul,
      Matrix.transpose_transpose]
  have key : ∀ D : Fin mm → ℚ,
      Matrix.trace
          ((Vtᵀ * (Matrix.diagonal Sk * Uᵀ)) *
            (sᵀ * (s * (U * (Matrix.diagonal D * Vt))))) =
        Matrix.trace (Matrix.diagonal Sk * (G * Matrix.diagonal D)) := by
    intro D
    rw [show (Vtᵀ * (Matrix.diagonal Sk * Uᵀ)) *
          (sᵀ * (s * (U * (Matrix.diagonal D * Vt)))) =
        Vtᵀ * ((Matrix.diagonal Sk * (G * Matrix.diagonal D)) * Vt) by
      rw [hGdef]
      simp only [Matrix.mul_assoc]]
    rw [Matrix.trace_mul_comm, Matrix.mul_assoc, hV, Matrix.mul_one]
  have hWkT : (s * Wk)ᵀ * r = (Vtᵀ * (Matrix.diagonal Sk * Uᵀ)) * (sᵀ * r) := by
    rw [hWk]
    simp only [Matrix.transpose_mul, Matrix.diagonal_transpose, Matrix.mul_assoc]
  have hT1 : Matrix.trace ((s * Wk)ᵀ * r) =
      Matrix.trace (Matrix.diagonal Sk * (G * Matrix.diagonal S)) := by
    rw [hWkT, hne]
    rw [show sᵀ * (s * (U * Matrix.diagonal S * Vt)) =
        sᵀ * (s * (U * (Matrix.diagonal S * Vt))) by
      simp only [Matrix.mul_assoc]]
    exact key S
  have hT2 : Matrix.trace ((s * Wk)ᵀ * (s * Wk)) =
      Matrix.trace (Matrix.diagonal Sk * (G * Matrix.diagonal Sk)) := by
    rw [show (s * Wk)ᵀ * (s * Wk) =
        (Vtᵀ * (Matrix.diagonal Sk * Uᵀ)) *
          (sᵀ * (s * (U * (Matrix.diagonal Sk * Vt)))) by
      rw [hWk]
      simp only [Matrix.transpose_mul, Matrix.diagonal_transpose,
        Matrix.mul_assoc]]
    exact key Sk
  have hTeq : Matrix.trace (Matrix.diagonal Sk * (G * Matrix.diagonal S)) =
      Matrix.trace (Matrix.diagonal Sk * (G * Matrix.diagonal Sk)) := by
    simp only [Matrix.trace, Matrix.diag, Matrix.diagonal_mul,
      Matrix.mul_diagonal]
    exact Finset.sum_congr rfl fun i _ => by linear_combination (G i i) * hSk i
  have hGii : ∀ i, 0 ≤ G i i := by
    intro i
    rw [hG]
    simp only [Matrix.mul_apply, Matrix.transpose_apply]
    exact Finset.sum_nonneg fun l _ => mul_self_nonneg _
  have hT2nn : 0 ≤ Matrix.trace (Matrix.diagonal Sk * (G * Matrix.diagonal Sk)) := by
    simp only [Matrix.trace, Matrix.diag, Matrix.diagonal_mul, Matrix.mul_diagonal]
    refine Finset.sum_nonneg fun i _ => ?_
    rw [show Sk i * (G i i * Sk i) = G i i * Sk i ^ 2 by ring]
    exact mul_nonneg (hGii i) (sq_nonneg _)
  have hfinal : frobSq (r - s * Wk) =
      frobSq r - Matrix.trace (Matrix.diagonal Sk * (G * Matrix.diagonal Sk)) := by
    rw [hexp, hcross, hT1, hT2, hTeq]
    ring
  linarith

/-- The stored factors multiply back to the rank-`k` truncation of the SVD:
`A @ B = U · diag (S masked to the first k values) · Vt`, provided the
square-root function squares back to the singular values. -/
theorem loraAB_eq (la : LinAlg) {ds dt : ℕ} (W : Matrix (Fin ds) (Fin dt) ℚ)
    (k : ℕ) (hk : k ≤ min ds dt)
    (hsqrt : ∀ i, la.sqrt (la.svdS W i) * la.sqrt (la.svdS W i) = la.svdS W i) :
    loraA la W k hk * loraB la W k hk =
      la.svdU W *
        Matrix.diagonal (fun i : Fin (min ds dt) =>
          if (i : ℕ) < k then la.svdS W i else 0) *
        la.svdVt W := by
  funext i l
  rw [Matrix.mul_apply, Matrix.mul_apply]
  simp only [Matrix.mul_diagonal, loraA, loraB, Matrix.of_apply, mul_ite,
    ite_mul, mul_zero, zero_mul]
  rw [sum_ite_lt hk (fun j => la.svdU W i j * la.svdS W j * la.svdVt W j l)]
  exact Finset.sum_congr rfl fun j _ => by
    linear_combination
      (la.svdU W i (Fin.castLE hk j) * la.svdVt W (Fin.castLE hk j) l) *
        hsqrt (Fin.castLE hk j)

/-- Base error produced by either branch of the solve. -/
theorem checked_epsilon_base (la : LinAlg) {n ds dt : ℕ} (e : Engine ds dt)
    (s : Matrix (Fin n) (Fin ds) ℚ) (t : Matrix (Fin n) (Fin dt) ℚ)
    (use_lora : Bool) (lora_rank : ℤ) :
    (compute_alignment_checked la e s t use_lora lora_rank).2.metrics.epsilon_base =
      meanSqError (s * wBase la s t) t := by
  by_cases h : (use_lora : Prop) ∧ 0 < lora_rank <;>
    simp [compute_alignment_checked, h]

/-- Final error produced by the correction-enabled branch. -/
theorem checked_enabled_final (la : LinAlg) {n ds dt : ℕ} (e : Engine ds dt)
    (s : Matrix (Fin n) (Fin ds) ℚ) (t : Matrix (Fin n) (Fin dt) ℚ)
    (use_lora : Bool) (lora_rank : ℤ) (h : (use_lora : Prop) ∧ 0 < lora_rank) :
    (compute_alignment_checked la e s t use_lora lora_rank).2.metrics.epsilon_final =
      meanSqError
        (s * wBase la s t +
          s * loraA la (wLoraFull la s t) (loraRankEff lora_rank ds dt)
              (Nat.min_le_right _ _) *
            loraB la (wLoraFull la s t) (loraRankEff lora_rank ds dt)
              (Nat.min_le_right _ _)) t := by
  simp [compute_alignment_checked, h]

/-- The correction-enabled branch stores the truncated factors with the
clamped rank `min lora_rank (min ds dt)` in `self.lora_adapter`. -/
theorem checked_enabled_adapter (la : LinAlg) {n ds dt : ℕ} (e : Engine ds dt)
    (s : Matrix (Fin n) (Fin ds) ℚ) (t : Matrix (Fin n) (Fin dt) ℚ)
    (use_lora : Bool) (lora_rank : ℤ) (h : (use_lora : Prop) ∧ 0 < lora_rank) :
    (compute_alignment_checked la e s t use_lora lora_rank).1.lora_adapter =
      some ⟨loraRankEff lora_rank ds dt,
        loraA la (wLoraFull la s t) (loraRankEff lora_rank ds dt)
          (Nat.min_le_right _ _),
        loraB la (wLoraFull la s t) (loraRankEff lora_rank ds dt)
          (Nat.min_le_right _ _)⟩ := by
  simp [compute_alignment_checked, h]

/-- The result's `metadata.lora_rank` reports the requested rank whenever
`use_lora` is set (line 174 of the source), independently of the clamp. -/
theorem checked_metadata_lora_rank (la : LinAlg) {n ds dt : ℕ} (e : Engine ds dt)
    (s : Matrix (Fin n) (Fin ds) ℚ) (t : Matrix (Fin n) (Fin dt) ℚ)
    (use_lora : Bool) (lora_rank : ℤ) :
    (compute_alignment_checked la e s t use_lora lora_rank).2.metadata.lora_rank =
      if use_lora then lora_rank else 0 := by
  by_cases h : (use_lora : Prop) ∧ 0 < lora_rank <;>
    simp [compute_alignment_checked, h]

/-- The result mirrors the engine's adapter field. -/
theorem checked_result_adapter (la : LinAlg) {n ds dt : ℕ} (e : Engine ds dt)
    (s : Matrix (Fin n) (Fin ds) ℚ) (t : Matrix (Fin n) (Fin dt) ℚ)
    (use_lora : Bool) (lora_rank : ℤ) :
    (compute_alignment_checked la e s t use_lora lora_rank).2.lora_adapter =
      (compute_alignment_checked la e s t use_lora lora_rank).1.lora_adapter := by
  by_cases h : (use_lora : Prop) ∧ 0 < lora_rank <;>
    simp [compute_alignment_checked, h]

theorem not_enabled_of_off {use_lora : Bool} {lora_rank : ℤ}
    (hoff : use_lora = false ∨ lora_rank ≤ 0) :
    ¬((use_lora : Prop) ∧ 0 < lora_rank) := by
  rintro ⟨h1, h2⟩
  rcases hoff with h | h
  · rw [h] at h1
    exact Bool.false_ne_true h1
  · omega

/-- C7: `transform`, `compute_epsilon` and `serialize` fail with
`TransformNotReadyError` exactly when the base matrix has not been
populated (by `compute_alignment` or `deserialize`); once `w_matrix` is
populated none of the three raises that error. -/
theorem not_ready_guard {ds dt m : ℕ} (e : Engine ds dt)
    (vectors : Matrix (Fin m) (Fin ds) ℚ) (apply_lora : Bool)
    (source_vector : Fin ds → ℚ) (target_vector : Fin dt → ℚ) :
    (e.transform vectors apply_lora = .error .transformNotReady ↔
      e.w_matrix = none)
    ∧ (e.compute_epsilon source_vector target_vector =
        .error .transformNotReady ↔ e.w_matrix = none)
    ∧ (e.serialize = .error .transformNotReady ↔ e.w_matrix = none) := by
  cases h : e.w_matrix <;>
    simp [Engine.transform, Engine.compute_epsilon, Engine.serialize, h]

theorem not_ready_guard_witness :
    freshEngine1.transform !![(1 : ℚ)] true = .error .transformNotReady
    ∧ readyEngine.serialize ≠ .error .transformNotReady := by
  constructor
  · exact (not_ready_guard freshEngine1 !![(1 : ℚ)] true (fun _ => 0)
      (fun _ => 0)).1.mpr rfl
  · intro hc
    have h2 := (not_ready_guard readyEngine !![(1 : ℚ)] true (fun _ => 0)
      (fun _ => 0)).2.2.mp hc
    simp [readyEngine] at h2

/-- C8: `compute_alignment` raises `DimensionMismatchError` with the engine
state untouched exactly when the anchor counts differ; with matching counts
(including `N = 0`) it returns a result instead. -/
theorem dimension_mismatch_exact (la : LinAlg) {n1 n2 ds dt : ℕ}
    (e : Engine ds dt) (source_vectors : Matrix (Fin n1) (Fin ds) ℚ)
    (target_vectors : Matrix (Fin n2) (Fin dt) ℚ)
    (use_lora : Bool) (lora_rank : ℤ) :
    (n1 ≠ n2 →
      compute_alignment la e source_vectors target_vectors use_lora lora_rank =
        (e, .error .dimensionMismatch))
    ∧ (n1 = n2 →
      ∃ res, (compute_alignment la e source_vectors target_vectors use_lora
        lora_rank).2 = .ok res) := by
  constructor
  · intro hne
    unfold compute_alignment
    rw [dif_neg hne]
  · intro heq
    subst heq
    rw [compute_alignment_same]
    exact ⟨_, rfl⟩

theorem dimension_mismatch_exact_witness :
    (compute_alignment trivialLA freshEngine1 (0 : Matrix (Fin 2) (Fin 1) ℚ)
        (0 : Matrix (Fin 3) (Fin 1) ℚ) true 64 =
      (freshEngine1, .error .dimensionMismatch))
    ∧ ∃ res, (compute_alignment trivialLA freshEngine1
        (0 : Matrix (Fin 0) (Fin 1) ℚ) (0 : Matrix (Fin 0) (Fin 1) ℚ)
        true 64).2 = .ok res :=
  ⟨(dimension_mismatch_exact trivialLA freshEngine1 0 0 true 64).1 (by decide),
   (dimension_mismatch_exact trivialLA freshEngine1 0 0 true 64).2 rfl⟩

/-- C9: on a Ready engine, `compute_epsilon` equals the squared Euclidean
norm of `transform(source.reshape(1,-1), apply_lora=True) - target`; the
single-pair epsilon goes through `transform` with the correction applied. -/
theorem compute_epsilon_uses_correction {ds dt : ℕ} (e : Engine ds dt)
    (W : Matrix (Fin ds) (Fin dt) ℚ) (hW : e.w_matrix = some W)
    (source_vector : Fin ds → ℚ) (target_vector : Fin dt → ℚ) :
    ∃ M, e.transform (rowOf source_vector) true = .ok M ∧
      e.compute_epsilon source_vector target_vector =
        .ok (∑ j, (M 0 j - target_vector j) ^ 2) := by
  refine ⟨transformCore W e.lora_adapter (rowOf source_vector) true, ?_, ?_⟩
  · simp [Engine.transform, hW]
  · simp [Engine.compute_epsilon, hW, frobSq, Fin.sum_univ_one,
      Matrix.sub_apply, rowOf]

theorem compute_epsilon_uses_correction_witness :
    ∃ M, readyEngine.transform (rowOf fun _ => (1 : ℚ)) true = .ok M ∧
      readyEngine.compute_epsilon (fun _ => (1 : ℚ)) (fun _ => (3 : ℚ)) =
        .ok (∑ j, (M 0 j - 3) ^ 2) :=
  compute_epsilon_uses_correction readyEngine !![(1 : ℚ)] rfl
    (fun _ => 1) (fun _ => 3)

/-- C10: a `use_lora=False` (or nonpositive-rank) re-solve keeps the old
`lora_adapter`, so a later `transform` with the correction applied adds the
stale correction term on top of the new base matrix. -/
theorem stale_adapter_reused (la : LinAlg) {n ds dt m : ℕ} (e : Engine ds dt)
    (ad : LoraAdapter ds dt) (had : e.lora_adapter = some ad)
    (s : Matrix (Fin n) (Fin ds) ℚ) (t : Matrix (Fin n) (Fin dt) ℚ)
    (use_lora : Bool) (lora_rank : ℤ)
    (hoff : use_lora = false ∨ lora_rank ≤ 0)
    (X : Matrix (Fin m) (Fin ds) ℚ) :
    (compute_alignment la e s t use_lora lora_rank).1.lora_adapter = some ad
    ∧ (compute_alignment la e s t use_lora lora_rank).1.transform X true =
        .ok (X * wBase la s t + X * ad.A * ad.B) := by
  rw [compute_alignment_same]
  have h1 := (checked_disabled la e s t use_lora lora_rank
    (not_enabled_of_off hoff)).1
  have hw := checked_w_matrix la e s t use_lora lora_rank
  constructor
  · rw [h1, had]
  · simp [Engine.transform, hw, h1, had, transformCore]

theorem stale_adapter_reused_witness :
    (compute_alignment trivialLA readyEngine !![(1 : ℚ)] !![(1 : ℚ)]
        false 64).1.lora_adapter = some ⟨1, !![(1 : ℚ)], !![(1 : ℚ)]⟩
    ∧ (compute_alignment trivialLA readyEngine !![(1 : ℚ)] !![(1 : ℚ)]
          false 64).1.transform !![(2 : ℚ)] true =
        .ok (!![(2 : ℚ)] * wBase trivialLA !![(1 : ℚ)] !![(1 : ℚ)] +
          !![(2 : ℚ)] * !![(1 : ℚ)] * !![(1 : ℚ)]) :=
  stale_adapter_reused trivialLA readyEngine ⟨1, !![(1 : ℚ)], !![(1 : ℚ)]⟩
    rfl _ _ false 64 (Or.inl rfl) _

/-- C3 counterexample: after an earlier correction-enabled solve, a
`use_lora=False` call leaves the stored `lora_adapter` populated — it is
not `None` as the claim requires for engines in any state. -/
theorem disabled_correction_cex :
    engineAfterDisabled.lora_adapter.isSome = true := by decide

/-- C3 (amended): a `use_lora=False` or nonpositive-rank call yields
`epsilon_final == epsilon_base` exactly and leaves `lora_adapter`
unchanged — hence still `None` on an engine that never had a correction,
but not cleared on one that had. -/
theorem disabled_correction_amended (la : LinAlg) {n ds dt : ℕ}
    (e : Engine ds dt) (s : Matrix (Fin n) (Fin ds) ℚ)
    (t : Matrix (Fin n) (Fin dt) ℚ) (use_lora : Bool) (lora_rank : ℤ)
    (hoff : use_lora = false ∨ lora_rank ≤ 0) :
    ∃ res, (compute_alignment la e s t use_lora lora_rank).2 = .ok res ∧
      res.metrics.epsilon_final = res.metrics.epsilon_base ∧
      (compute_alignment la e s t use_lora lora_rank).1.lora_adapter =
        e.lora_adapter := by
  rw [compute_alignment_same]
  exact ⟨_, rfl,
    (checked_disabled la e s t use_lora lora_rank (not_enabled_of_off hoff)).2,
    (checked_disabled la e s t use_lora lora_rank (not_enabled_of_off hoff)).1⟩

theorem disabled_correction_amended_witness :
    ∃ res, (compute_alignment trivialLA freshEngine1 !![(1 : ℚ)] !![(1 : ℚ)]
        false 64).2 = .ok res ∧
      res.metrics.epsilon_final = res.metrics.epsilon_base ∧
      (compute_alignment trivialLA freshEngine1 !![(1 : ℚ)] !![(1 : ℚ)]
          false 64).1.lora_adapter = freshEngine1.lora_adapter :=
  disabled_correction_amended trivialLA freshEngine1 _ _ false 64 (Or.inl rfl)

/-- C2 counterexample: on a 2-to-2-dimensional anchor set with a single
anchor (`N = 1`) and requested rank `5`, the effective rank actually stored
is `min 5 (min 2 2) = 2` — not `min 5 (min 2 (min 2 1)) = 1` as the claim
computes — and `metadata.lora_rank` reports the requested `5`, not the
effective rank. -/
theorem rank_clamp_cex :
    ((compute_alignment trivialLA freshEngine2 !![(1 : ℚ), 0] !![(1 : ℚ), 0]
        true 5).1.lora_adapter.map fun a => a.rank) = some 2
    ∧ ((compute_alignment trivialLA freshEngine2 !![(1 : ℚ), 0] !![(1 : ℚ), 0]
        true 5).2.toOption.map fun r => r.metadata.lora_rank) = some 5
    ∧ min 5 (min 2 (min 2 1)) = 1 ∧ (2 : ℕ) ≠ 1 ∧ (5 : ℤ) ≠ 1 := by
  decide

/-- C2 (amended): a requested `lora_rank` larger than the number of
singular values does not raise; the effective rank used and stored is
`min lora_rank (min D_source D_target)` — the anchor count `N` plays no
role — while `metadata.lora_rank` reports the *requested* rank. -/
theorem rank_clamp_amended (la : LinAlg) {n ds dt : ℕ} (e : Engine ds dt)
    (s : Matrix (Fin n) (Fin ds) ℚ) (t : Matrix (Fin n) (Fin dt) ℚ)
    (lora_rank : ℤ) (hr : 0 < lora_rank) :
    ∃ res, (compute_alignment la e s t true lora_rank).2 = .ok res ∧
      ((compute_alignment la e s t true lora_rank).1.lora_adapter.map
          fun a => a.rank) = some (min lora_rank.toNat (min ds dt)) ∧
      (res.lora_adapter.map fun a => a.rank) =
        some (min lora_rank.toNat (min ds dt)) ∧
      res.metadata.lora_rank = lora_rank := by
  rw [compute_alignment_same]
  refine ⟨_, rfl, ?_, ?_, ?_⟩
  · rw [checked_enabled_adapter la e s t true lora_rank ⟨rfl, hr⟩]
    simp [loraRankEff]
  · rw [checked_result_adapter,
      checked_enabled_adapter la e s t true lora_rank ⟨rfl, hr⟩]
    simp [loraRankEff]
  · rw [checked_metadata_lora_rank]
    simp

theorem rank_clamp_amended_witness :
    ∃ res, (compute_alignment trivialLA freshEngine2 !![(1 : ℚ), 0]
        !![(0 : ℚ), 1] true 7).2 = .ok res ∧
      ((compute_alignment trivialLA freshEngine2 !![(1 : ℚ), 0]
          !![(0 : ℚ), 1] true 7).1.lora_adapter.map fun a => a.rank) =
        some (min (7 : ℤ).toNat (min 2 2)) ∧
      (res.lora_adapter.map fun a => a.rank) =
        some (min (7 : ℤ).toNat (min 2 2)) ∧
      res.metadata.lora_rank = 7 :=
  rank_clamp_amended trivialLA freshEngine2 _ _ 7 (by decide)

/-- C5: for a same-dimension anchor set (with at least `D_source` anchors)
and the correction disabled, the Procrustes base error `epsilon_base` is at
most the mean squared error of the identity mapping, given that the
Procrustes kernel meets its contract of minimizing the Frobenius objective
over orthogonal matrices. -/
theorem same_dim_identity_bound (la : LinAlg) {n ds : ℕ} (e : Engine ds ds)
    (s t : Matrix (Fin n) (Fin ds) ℚ) (_hn : ds ≤ n)
    (hmin : ∀ Q : Matrix (Fin ds) (Fin ds) ℚ, Qᵀ * Q = 1 →
      frobSq (s * la.procrustes s t - t) ≤ frobSq (s * Q - t)) :
    ∃ res, (compute_alignment la e s t false 64).2 = .ok res ∧
      res.metrics.epsilon_base ≤ meanSqError s t := by
  rw [compute_alignment_same]
  refine ⟨_, rfl, ?_⟩
  rw [checked_epsilon_base, wBase_same]
  unfold meanSqError
  apply div_natCast_mono
  have h1 := hmin 1 (by rw [Matrix.transpose_one, Matrix.one_mul])
  rw [Matrix.mul_one] at h1
  exact h1

theorem same_dim_identity_bound_witness :
    ∃ res, (compute_alignment trivialLA freshEngine1 !![(1 : ℚ)] !![(1 : ℚ)]
        false 64).2 = .ok res ∧
      res.metrics.epsilon_base ≤ meanSqError !![(1 : ℚ)] !![(1 : ℚ)] := by
  refine same_dim_identity_bound trivialLA freshEngine1 _ _ (by decide) ?_
  intro Q hQ
  rw [show frobSq (!![(1 : ℚ)] * trivialLA.procrustes !![(1 : ℚ)] !![(1 : ℚ)] -
      !![(1 : ℚ)]) = 0 by simp [trivialLA, frobSq]]
  exact frobSq_nonneg _

/-- C6: the base algorithm is selected by dimension: equal dimensions take
the Orthogonal Procrustes solve (so the stored base matrix is the
orthogonal minimizer of the Frobenius objective), and unequal dimensions
take the unconstrained least-squares solve (so the stored base matrix is
the least-squares minimizer), given the kernels' contracts. -/
theorem base_algorithm_selection (la : LinAlg) {n ds dt : ℕ}
    (e1 : Engine ds ds) (e2 : Engine ds dt)
    (s1 t1 : Matrix (Fin n) (Fin ds) ℚ)
    (s2 : Matrix (Fin n) (Fin ds) ℚ) (t2 : Matrix (Fin n) (Fin dt) ℚ)
    (use_lora : Bool) (lora_rank : ℤ)
    (horth : (la.procrustes s1 t1)ᵀ * la.procrustes s1 t1 = 1)
    (hproc : ∀ Q : Matrix (Fin ds) (Fin ds) ℚ, Qᵀ * Q = 1 →
      frobSq (s1 * la.procrustes s1 t1 - t1) ≤ frobSq (s1 * Q - t1))
    (hne : ds ≠ dt)
    (hls : ∀ V : Matrix (Fin ds) (Fin dt) ℚ,
      frobSq (s2 * la.lstsq s2 t2 - t2) ≤ frobSq (s2 * V - t2)) :
    (wBase la s1 t1 = la.procrustes s1 t1
      ∧ (compute_alignment la e1 s1 t1 use_lora lora_rank).1.w_matrix =
          some (la.procrustes s1 t1)
      ∧ (wBase la s1 t1)ᵀ * wBase la s1 t1 = 1
      ∧ ∀ Q : Matrix (Fin ds) (Fin ds) ℚ, Qᵀ * Q = 1 →
          frobSq (s1 * wBase la s1 t1 - t1) ≤ frobSq (s1 * Q - t1))
    ∧ (wBase la s2 t2 = la.lstsq s2 t2
      ∧ (compute_alignment la e2 s2 t2 use_lora lora_rank).1.w_matrix =
          some (la.lstsq s2 t2)
      ∧ ∀ V : Matrix (Fin ds) (Fin dt) ℚ,
          frobSq (s2 * wBase la s2 t2 - t2) ≤ frobSq (s2 * V - t2)) := by
  have hb1 := wBase_same la s1 t1
  have hb2 := wBase_ne la hne s2 t2
  refine ⟨⟨hb1, ?_, ?_, ?_⟩, hb2, ?_, ?_⟩
  · rw [compute_alignment_same, checked_w_matrix, hb1]
  · rw [hb1]
    exact horth
  · rw [hb1]
    exact hproc
  · rw [compute_alignment_same, checked_w_matrix, hb2]
  · rw [hb2]
    exact hls

theorem base_algorithm_selection_witness :
    (wBase trivialLA !![(1 : ℚ)] !![(1 : ℚ)] =
        trivialLA.procrustes !![(1 : ℚ)] !![(1 : ℚ)]
      ∧ (compute_alignment trivialLA freshEngine1 !![(1 : ℚ)] !![(1 : ℚ)]
          true 64).1.w_matrix =
            some (trivialLA.procrustes !![(1 : ℚ)] !![(1 : ℚ)])
      ∧ (wBase trivialLA !![(1 : ℚ)] !![(1 : ℚ)])ᵀ *
          wBase trivialLA !![(1 : ℚ)] !![(1 : ℚ)] = 1
      ∧ ∀ Q : Matrix (Fin 1) (Fin 1) ℚ, Qᵀ * Q = 1 →
          frobSq (!![(1 : ℚ)] * wBase trivialLA !![(1 : ℚ)] !![(1 : ℚ)] -
            !![(1 : ℚ)]) ≤ frobSq (!![(1 : ℚ)] * Q - !![(1 : ℚ)]))
    ∧ (wBase trivialLA !![(1 : ℚ)] !![(0 : ℚ), 0] =
        trivialLA.lstsq !![(1 : ℚ)] !![(0 : ℚ), 0]
      ∧ (compute_alignment trivialLA freshEngine12 !![(1 : ℚ)] !![(0 : ℚ), 0]
          true 64).1.w_matrix =
            some (trivialLA.lstsq !![(1 : ℚ)] !![(0 : ℚ), 0])
      ∧ ∀ V : Matrix (Fin 1) (Fin 2) ℚ,
          frobSq (!![(1 : ℚ)] * wBase trivialLA !![(1 : ℚ)] !![(0 : ℚ), 0] -
            !![(0 : ℚ), 0]) ≤ frobSq (!![(1 : ℚ)] * V - !![(0 : ℚ), 0])) := by
  refine base_algorithm_selection trivialLA freshEngine1 freshEngine12
    !![(1 : ℚ)] !![(1 : ℚ)] !![(1 : ℚ)] !![(0 : ℚ), 0] true 64
    (by simp [trivialLA]) ?_ (by decide) ?_
  · intro Q hQ
    rw [show frobSq (!![(1 : ℚ)] *
        trivialLA.procrustes !![(1 : ℚ)] !![(1 : ℚ)] - !![(1 : ℚ)]) = 0 by
      simp [trivialLA, frobSq]]
    exact frobSq_nonneg _
  · intro V
    rw [show frobSq (!![(1 : ℚ)] *
        trivialLA.lstsq !![(1 : ℚ)] !![(0 : ℚ), 0] - !![(0 : ℚ), 0]) = 0 by
      simp [trivialLA, frobSq]]
    exact frobSq_nonneg _

/-- C4: with the correction enabled and a positive requested rank, the
corrected in-sample error never exceeds the base error, given the numeric
kernels' contracts at this call: the least-squares solve of the residual
satisfies its normal equations, the SVD factors multiply back to
`W_lora_full` with orthonormal rows of `Vt`, and `sqrt` squares back to the
singular values. -/
theorem correction_monotone (la : LinAlg) {n ds dt : ℕ} (e : Engine ds dt)
    (s : Matrix (Fin n) (Fin ds) ℚ) (t : Matrix (Fin n) (Fin dt) ℚ)
    (lora_rank : ℤ) (hr : 0 < lora_rank)
    (hlsq : sᵀ * residualOf la s t = sᵀ * (s * wLoraFull la s t))
    (hsvd : wLoraFull la s t =
      la.svdU (wLoraFull la s t) *
        Matrix.diagonal (la.svdS (wLoraFull la s t)) *
        la.svdVt (wLoraFull la s t))
    (hV : la.svdVt (wLoraFull la s t) * (la.svdVt (wLoraFull la s t))ᵀ = 1)
    (hsq : ∀ i, la.sqrt (la.svdS (wLoraFull la s t) i) *
        la.sqrt (la.svdS (wLoraFull la s t) i) =
      la.svdS (wLoraFull la s t) i) :
    ∃ res, (compute_alignment la e s t true lora_rank).2 = .ok res ∧
      res.metrics.epsilon_final ≤ res.metrics.epsilon_base := by
  rw [compute_alignment_same]
  refine ⟨_, rfl, ?_⟩
  rw [checked_enabled_final la e s t true lora_rank ⟨rfl, hr⟩,
    checked_epsilon_base]
  unfold meanSqError
  apply div_natCast_mono
  have hAB : loraA la (wLoraFull la s t) (loraRankEff lora_rank ds dt)
        (Nat.min_le_right _ _) *
      loraB la (wLoraFull la s t) (loraRankEff lora_rank ds dt)
        (Nat.min_le_right _ _) =
      la.svdU (wLoraFull la s t) *
        Matrix.diagonal (fun i : Fin (min ds dt) =>
          if (i : ℕ) < loraRankEff lora_rank ds dt then
            la.svdS (wLoraFull la s t) i else 0) *
        la.svdVt (wLoraFull la s t) :=
    loraAB_eq la (wLoraFull la s t) (loraRankEff lora_rank ds dt)
      (Nat.min_le_right _ _) hsq
  have harg : s * wBase la s t +
        s * loraA la (wLoraFull la s t) (loraRankEff lora_rank ds dt)
            (Nat.min_le_right _ _) *
          loraB la (wLoraFull la s t) (loraRankEff lora_rank ds dt)
            (Nat.min_le_right _ _) - t =
      -(residualOf la s t -
        s * (la.svdU (wLoraFull la s t) *
          Matrix.diagonal (fun i : Fin (min ds dt) =>
            if (i : ℕ) < loraRankEff lora_rank ds dt then
              la.svdS (wLoraFull la s t) i else 0) *
          la.svdVt (wLoraFull la s t))) := by
    rw [Matrix.mul_assoc, hAB, residualOf]
    abel
  have hbase : s * wBase la s t - t = -(residualOf la s t) := by
    rw [residualOf, neg_sub]
  rw [harg, hbase, frobSq_neg, frobSq_neg]
  exact trunc_correction_le s (residualOf la s t) (la.svdU (wLoraFull la s t))
    (la.svdS (wLoraFull la s t)) _ (la.svdVt (wLoraFull la s t))
    (hsvd ▸ hlsq) hV
    (fun i => by by_cases hik : (i : ℕ) < loraRankEff lora_rank ds dt <;>
      simp [hik])

theorem correction_monotone_witness :
    ∃ res, (compute_alignment trivialLA freshEngine1 !![(1 : ℚ)] !![(1 : ℚ)]
        true 1).2 = .ok res ∧
      res.metrics.epsilon_final ≤ res.metrics.epsilon_base := by
  refine correction_monotone trivialLA freshEngine1 !![(1 : ℚ)] !![(1 : ℚ)] 1
    (by decide) ?_ ?_ ?_ ?_
  · simp [residualOf, wLoraFull, wBase_same, trivialLA]
  · simp [wLoraFull, residualOf, wBase_same, trivialLA]
  · funext i j
    have hij : i = j := Fin.ext (by omega)
    subst hij
    have hi : (i : ℕ) = 0 := by omega
    rw [Matrix.one_apply_eq]
    simp [trivialLA, Matrix.mul_apply, Matrix.transpose_apply, Matrix.of_apply,
      Fin.sum_univ_one, hi]
  · intro i
    simp [trivialLA]

/-- Computation of `deserialize` on a dict with a valid `standard_dim`. -/
theorem deserialize_ok (xw : List (List ℚ)) (adp : Option SerializedLora)
    (md : Option Metadata) (sd : ℕ) (hsd : sd = 4096 ∨ sd = 8192) :
    deserialize ⟨xw, adp, md, sd⟩ =
      .ok ⟨xw.length, (xw.headD []).length,
        { standard_dim := sd,
          w_matrix := some (ofLists xw.length (xw.headD []).length xw),
          lora_adapter := adp.map fun la =>
            ⟨la.rank, ofLists xw.length la.rank la.A,
             ofLists la.rank (xw.headD []).length la.B⟩,
          metadata := md }⟩ := by
  rcases hsd with h | h <;> subst h <;> rfl

/-- Transport of the dimensions read off the serialized lists to the
engine's own dimensions inside the dependent triple. -/
theorem sigma_engine_eq {ds dt L1 L2 : ℕ} (h1 : L1 = ds) (h2 : L2 = dt)
    (sd : ℕ) (wm : List (List ℚ)) (adp : Option SerializedLora)
    (md : Option Metadata) :
    (⟨L1, L2,
      { standard_dim := sd, w_matrix := some (ofLists L1 L2 wm),
        lora_adapter := adp.map fun la =>
          ⟨la.rank, ofLists L1 la.rank la.A, ofLists la.rank L2 la.B⟩,
        metadata := md }⟩ : (a : ℕ) × (b : ℕ) × Engine a b) =
    ⟨ds, dt,
      { standard_dim := sd, w_matrix := some (ofLists ds dt wm),
        lora_adapter := adp.map fun la =>
          ⟨la.rank, ofLists ds la.rank la.A, ofLists la.rank dt la.B⟩,
        metadata := md }⟩ := by
  subst h1
  subst h2
  rfl

/-- C1: serializing a Ready engine and deserializing the result yields an
engine whose `transform` with the correction applied agrees with the
original's on every input batch within 1e-6 per element (indeed exactly:
the textual encoding of the matrices round-trips losslessly). -/
theorem serialize_round_trip {ds dt m : ℕ} (e : Engine ds dt)
    (W : Matrix (Fin ds) (Fin dt) ℚ) (hW : e.w_matrix = some W)
    (hds : 0 < ds) (hsd : e.standard_dim = 4096 ∨ e.standard_dim = 8192)
    (X : Matrix (Fin m) (Fin ds) ℚ) :
    ∃ (d : SerializedData) (e2 : Engine ds dt)
      (Y1 Y2 : Matrix (Fin m) (Fin dt) ℚ),
      e.serialize = .ok d ∧
      deserialize d = .ok ⟨ds, dt, e2⟩ ∧
      e.transform X true = .ok Y1 ∧
      e2.transform X true = .ok Y2 ∧
      ∀ i j, |Y2 i j - Y1 i j| ≤ 1 / 1000000 := by
  obtain ⟨sd, wm, ad, md⟩ := e
  obtain rfl : wm = some W := hW
  replace hsd : sd = 4096 ∨ sd = 8192 := hsd
  have hadp : ((ad.map fun a =>
        (⟨toLists a.A, toLists a.B, a.rank⟩ : SerializedLora)).map fun la =>
          (⟨la.rank, ofLists ds la.rank la.A,
            ofLists la.rank dt la.B⟩ : LoraAdapter ds dt)) = ad := by
    cases ad with
    | none => rfl
    | some a =>
      show some (⟨a.rank, ofLists ds a.rank (toLists a.A),
        ofLists a.rank dt (toLists a.B)⟩ : LoraAdapter ds dt) = some a
      rw [ofLists_toLists, ofLists_toLists]
  have hdes : deserialize
      { w_matrix := toLists W,
        lora_adapter := ad.map fun a => ⟨toLists a.A, toLists a.B, a.rank⟩,
        metadata := md, standard_dim := sd } =
      .ok ⟨ds, dt, ⟨sd, some W, ad, md⟩⟩ := by
    rw [deserialize_ok _ _ _ _ hsd,
      sigma_engine_eq (toLists_length W) (toLists_headD_length W hds),
      ofLists_toLists, hadp]
  refine ⟨_, _, _, _, rfl, hdes, rfl, rfl, ?_⟩
  intro i j
  simp only [sub_self, abs_zero]
  norm_num

theorem serialize_round_trip_witness :
    ∃ (d : SerializedData) (e2 : Engine 1 1) (Y1 Y2 : Matrix (Fin 1) (Fin 1) ℚ),
      readyEngine.serialize = .ok d ∧
      deserialize d = .ok ⟨1, 1, e2⟩ ∧
      readyEngine.transform !![(2 : ℚ)] true = .ok Y1 ∧
      e2.transform !![(2 : ℚ)] true = .ok Y2 ∧
      ∀ i j, |Y2 i j - Y1 i j| ≤ 1 / 1000000 :=
  serialize_round_trip readyEngine !![(1 : ℚ)] rfl (by decide) (Or.inr rfl)
    !![(2 : ℚ)]

end WMatrix
